import Mathlib

/-!
Shallow embedding of `src/analysis.py` (Anomalous Access Detector core) and
verification of the spec claims about it.

Records are rows of the validated CSV; only the six columns touched by the
analysis code are modelled (`UserID`, `Username`, `Role`, `Entitlement`,
`Title`, `Department`).  `Title` may be missing (pandas `NaN`), modelled as
`Option String`; the ingest collaborator guarantees the other columns are
non-null.  Thresholds are modelled as exact rationals; the source computes
`threshold / 100.0 * users` in IEEE doubles, embedded both in an
exact-arithmetic reading (`filter_entitlements`) and, for boundary-sensitive
facts, through a binary64 round-to-nearest-even model
(`filter_entitlements64`).  A pandas `groupby` iterates its groups with
keys in ascending sorted order, dropping rows whose key contains `NaN`
(`dropna=True` default), and each group keeps the original row order; the
embedding reproduces exactly that.
-/

namespace FISER

/-- Lexicographic code-point comparison of char lists, the order Python and
pandas use when sorting strings.  `charsLe a b` is `a ≤ b`. -/
def charsLe : List Char → List Char → Bool
  | [], _ => true
  | _ :: _, [] => false
  | a :: as, b :: bs =>
    if a.toNat < b.toNat then true
    else if b.toNat < a.toNat then false
    else charsLe as bs

/-- String comparison by code points, as pandas sorts string group keys. -/
def strLe (a b : String) : Bool := charsLe a.data b.data

theorem charsLe_refl : ∀ l, charsLe l l = true
  | [] => rfl
  | a :: as => by simp [charsLe, charsLe_refl as]

theorem charsLe_total : ∀ a b, charsLe a b = true ∨ charsLe b a = true
  | [], _ => Or.inl rfl
  | _ :: _, [] => Or.inr rfl
  | a :: as, b :: bs => by
    rcases Nat.lt_trichotomy a.toNat b.toNat with h | h | h
    · left; simp [charsLe, h]
    · rcases charsLe_total as bs with ih | ih
      · left; simp [charsLe, h, ih]
      · right; simp [charsLe, h, ih]
    · right; simp [charsLe, h]

theorem charsLe_trans : ∀ a b c, charsLe a b = true → charsLe b c = true →
    charsLe a c = true
  | [], _, _ => fun _ _ => rfl
  | _ :: _, [], _ => fun hab _ => by simp [charsLe] at hab
  | _ :: _, _ :: _, [] => fun _ hbc => by simp [charsLe] at hbc
  | a :: as, b :: bs, c :: cs => fun hab hbc => by
    rcases Nat.lt_trichotomy a.toNat b.toNat with h1 | h1 | h1
    · rcases Nat.lt_trichotomy b.toNat c.toNat with h2 | h2 | h2
      · simp [charsLe, Nat.lt_trans h1 h2]
      · simp [charsLe, h2 ▸ h1]
      · simp [charsLe, Nat.lt_asymm h2, h2] at hbc
    · rcases Nat.lt_trichotomy b.toNat c.toNat with h2 | h2 | h2
      · simp [charsLe, h1 ▸ h2]
      · have h3 : a.toNat = c.toNat := h1.trans h2
        simp [charsLe, h1, h2, h3, Nat.lt_irrefl] at hab hbc ⊢
        exact charsLe_trans as bs cs hab hbc
      · simp [charsLe, Nat.lt_asymm h2, h2] at hbc
    · simp [charsLe, Nat.lt_asymm h1, h1] at hab

theorem charsLe_antisymm : ∀ a b, charsLe a b = true → charsLe b a = true → a = b
  | [], [] => fun _ _ => rfl
  | [], _ :: _ => fun _ hba => by simp [charsLe] at hba
  | _ :: _, [] => fun hab _ => by simp [charsLe] at hab
  | a :: as, b :: bs => fun hab hba => by
    rcases Nat.lt_trichotomy a.toNat b.toNat with h | h | h
    · simp [charsLe, Nat.lt_asymm h, h] at hba
    · have hc : a = b := by
        have := congrArg Char.ofNat h
        simpa [Char.ofNat_toNat] using this
      subst hc
      simp [charsLe, Nat.lt_irrefl] at hab hba
      exact congrArg (a :: ·) (charsLe_antisymm as bs hab hba)
    · simp [charsLe, Nat.lt_asymm h, h] at hab

theorem strLe_refl (a : String) : strLe a a = true := charsLe_refl a.data

theorem strLe_total (a b : String) : strLe a b = true ∨ strLe b a = true :=
  charsLe_total a.data b.data

theorem strLe_trans {a b c : String} (h1 : strLe a b = true)
    (h2 : strLe b c = true) : strLe a c = true :=
  charsLe_trans a.data b.data c.data h1 h2

theorem strLe_antisymm {a b : String} (h1 : strLe a b = true)
    (h2 : strLe b a = true) : a = b := by
  cases a with
  | mk da => cases b with
    | mk db => exact congrArg String.mk (charsLe_antisymm da db h1 h2)

/-- Propositional form of `strLe`, used as the sorting relation. -/
def strLeP (a b : String) : Prop := strLe a b = true

instance : DecidableRel strLeP := fun a b => instDecidableEqBool (strLe a b) true

instance : IsTotal String strLeP := ⟨strLe_total⟩

instance : IsTrans String strLeP := ⟨fun _ _ _ => strLe_trans⟩

/-- One row of the validated input dataset, with the six columns the analysis
code reads.  `title` is `none` when the Title cell is missing (pandas `NaN`);
an empty Title string is `some ""`, a distinct value.  The ingest collaborator
guarantees `userID`, `role`, `ent` and `dept` are present, so they are plain
strings. -/
structure AccessRecord where
  userID : String
  username : String
  role : String
  ent : String
  title : Option String
  dept : String
deriving DecidableEq

/-- Peer-group key: `df.groupby(["Department"])` yields department keys,
`df.groupby(["Department", "Title"])` yields (department, title) pairs. -/
inductive GKey where
  | unit : String → GKey
  | unitTitle : String → String → GKey
deriving DecidableEq

/-- Sorted-order comparison of group keys, as pandas sorts them
(lexicographic on the tuple components; the two constructors never mix in a
single run, their relative order is an arbitrary completion). -/
def GKey.le : GKey → GKey → Bool
  | .unit d, .unit d2 => strLe d d2
  | .unit _, .unitTitle _ _ => true
  | .unitTitle _ _, .unit _ => false
  | .unitTitle d t, .unitTitle d2 t2 => if d = d2 then strLe t t2 else strLe d d2

/-- Propositional form of `GKey.le`. -/
def GKey.leP (a b : GKey) : Prop := GKey.le a b = true

instance : DecidableRel GKey.leP := fun a b => instDecidableEqBool (GKey.le a b) true

theorem GKey.le_total : ∀ a b : GKey, GKey.le a b = true ∨ GKey.le b a = true
  | .unit d, .unit d2 => strLe_total d d2
  | .unit _, .unitTitle _ _ => Or.inl rfl
  | .unitTitle _ _, .unit _ => Or.inr rfl
  | .unitTitle d t, .unitTitle d2 t2 => by
    by_cases h : d = d2
    · subst h
      rcases strLe_total t t2 with h2 | h2
      · left; simp [GKey.le, h2]
      · right; simp [GKey.le, h2]
    · rcases strLe_total d d2 with h2 | h2
      · left; simp [GKey.le, h, h2]
      · right; simp [GKey.le, Ne.symm h, h2]

theorem GKey.le_trans : ∀ a b c : GKey, GKey.le a b = true → GKey.le b c = true →
    GKey.le a c = true
  | .unit _, .unit _, .unit _ => fun h1 h2 => strLe_trans h1 h2
  | .unit _, .unit _, .unitTitle _ _ => fun _ _ => rfl
  | .unit _, .unitTitle _ _, .unit _ => fun _ h2 => by simp [GKey.le] at h2
  | .unit _, .unitTitle _ _, .unitTitle _ _ => fun _ _ => rfl
  | .unitTitle _ _, .unit _, _ => fun h1 _ => by simp [GKey.le] at h1
  | .unitTitle _ _, .unitTitle _ _, .unit _ => fun _ h2 => by simp [GKey.le] at h2
  | .unitTitle d t, .unitTitle d2 t2, .unitTitle d3 t3 => fun h1 h2 => by
    by_cases e1 : d = d2 <;> by_cases e2 : d2 = d3
    · subst e1; subst e2
      simp [GKey.le] at h1 h2 ⊢
      exact strLe_trans h1 h2
    · subst e1
      simp [GKey.le, e2] at h2 ⊢
      exact h2
    · subst e2
      simp [GKey.le, e1] at h1 ⊢
      exact h1
    · by_cases e3 : d = d3
      · subst e3
        simp [GKey.le, e1, e2] at h1 h2
        exact absurd (strLe_antisymm h1 h2) e1
      · simp [GKey.le, e1, e2, e3] at h1 h2 ⊢
        exact strLe_trans h1 h2

instance : IsTotal GKey GKey.leP := ⟨GKey.le_total⟩

instance : IsTrans GKey GKey.leP := ⟨GKey.le_trans⟩

/-- Sorted-order comparison of (Role, Entitlement) index keys, as pandas
sorts the index of `group_df.groupby(["Role", "Entitlement"])`. -/
def entLe (p q : String × String) : Bool :=
  if p.1 = q.1 then strLe p.2 q.2 else strLe p.1 q.1

/-- Propositional form of `entLe`. -/
def entLeP (p q : String × String) : Prop := entLe p q = true

instance : DecidableRel entLeP := fun p q => instDecidableEqBool (entLe p q) true

/-- Grouping-key extraction for one row.  `df.groupby` with `dropna=True`
(the pandas default) silently drops a row whose key tuple contains `NaN`;
extraction returns `none` exactly for such rows (missing Title under
`Department + Title` grouping). -/
def extractKey (peer_group_type : String) (r : AccessRecord) : Option GKey :=
  if peer_group_type = "Department-wide" then some (GKey.unit r.dept)
  else
    match r.title with
    | some t => some (GKey.unitTitle r.dept t)
    | none => none

/-- Distinct group keys of the dataframe, in the ascending order pandas
iterates them (`groupby` sorts keys by default). -/
def groupKeys (df : List AccessRecord) (peer_group_type : String) : List GKey :=
  ((df.filterMap (extractKey peer_group_type)).insertionSort GKey.leP).dedup

/-- Rows of one peer group, in original dataframe order, as pandas hands a
`group_df` to the loop body. -/
def groupRows (df : List AccessRecord) (peer_group_type : String) (k : GKey) :
    List AccessRecord :=
  df.filter (fun r => decide (extractKey peer_group_type r = some k))

/-- Embedding of `get_peer_groups(df, peer_group_type)`: the sequence of
(group key, group rows) pairs the `for group, group_df in group_obj` loops
iterate over. -/
def get_peer_groups (df : List AccessRecord) (peer_group_type : String) :
    List (GKey × List AccessRecord) :=
  (groupKeys df peer_group_type).map (fun k => (k, groupRows df peer_group_type k))

/-- Distinct (Role, Entitlement) pairs of a group in pandas index order. -/
def entKeys (g : List AccessRecord) : List (String × String) :=
  ((g.map (fun r => (r.role, r.ent))).insertionSort entLeP).dedup

/-- Count of distinct identities of the group holding one (Role, Entitlement)
pair: `group_df.groupby(["Role", "Entitlement"])["UserID"].nunique()` at that
index key. -/
def holderCount (g : List AccessRecord) (e : String × String) : Nat :=
  ((g.filter (fun r => decide ((r.role, r.ent) = e))).map (fun r => r.userID)).dedup.length

/-- Embedding of `get_entitlement_counts(group_df)`: the pair of
`group_df["UserID"].nunique()` and the per-entitlement distinct-identity
count table. -/
def get_entitlement_counts (g : List AccessRecord) :
    Nat × List ((String × String) × Nat) :=
  ((g.map (fun r => r.userID)).dedup.length,
    (entKeys g).map (fun e => (e, holderCount g e)))

/-- Embedding of `filter_entitlements(ent_counts, users, threshold, is_baseline)`.
The source computes `threshold_ratio = threshold / 100.0 * users` and keeps
the index entries with `ent_counts >= threshold_ratio` (baseline mode) or
`ent_counts <= threshold_ratio` (rare mode); this version embeds the ratio in
exact rational arithmetic, an idealisation that is value-correct except for
exact-boundary comparisons; `filter_entitlements64` below carries the IEEE
double rounding of the same source line for boundary-sensitive facts. -/
def filter_entitlements (ent_counts : List ((String × String) × Nat))
    (users : Nat) (threshold : ℚ) (is_baseline : Bool) : List (String × String) :=
  let threshold_ratio : ℚ := threshold / 100 * users
  if is_baseline then
    (ent_counts.filter (fun p => decide (threshold_ratio ≤ (p.2 : ℚ)))).map Prod.fst
  else
    (ent_counts.filter (fun p => decide ((p.2 : ℚ) ≤ threshold_ratio))).map Prod.fst

/-- Nearest integer to a rational with ties going to the even neighbour — the
integer core of IEEE round-to-nearest-even. -/
def rndTE (q : ℚ) : ℤ :=
  if q - ⌊q⌋ < 1/2 then ⌊q⌋
  else if 1/2 < q - ⌊q⌋ then ⌊q⌋ + 1
  else if ⌊q⌋ % 2 = 0 then ⌊q⌋ else ⌊q⌋ + 1

/-- Round a rational to the nearest IEEE binary64 (double) value, round to
nearest with ties to even, for values in the normal range: the 53-bit
significand scale is fixed by the binade of `x`.  Subnormal and overflow
handling is outside the modelled range — every number in the analysed
computations is far from both. -/
def roundB64 (x : ℚ) : ℚ :=
  if x = 0 then 0
  else rndTE (x / 2 ^ (Int.log 2 |x| - 52)) * 2 ^ (Int.log 2 |x| - 52)

/-- The value the source line `threshold / 100.0 * users` actually produces
in IEEE double arithmetic: one rounding after the division and one after the
multiplication.  The `threshold` argument stands for the exact value of the
double the caller passes (UI thresholds such as 56.0 are exactly
representable), and `users` is an integer below 2^53, converted to double
exactly. -/
def threshold_ratio64 (threshold : ℚ) (users : Nat) : ℚ :=
  roundB64 (roundB64 (threshold / 100) * users)

/-- Variant of `filter_entitlements` whose threshold ratio is computed in
IEEE double arithmetic, as the source actually evaluates it; the count
comparisons themselves are exact (int64 counts below 2^53 convert to double
exactly, and comparison introduces no rounding). -/
def filter_entitlements64 (ent_counts : List ((String × String) × Nat))
    (users : Nat) (threshold : ℚ) (is_baseline : Bool) : List (String × String) :=
  let threshold_ratio : ℚ := threshold_ratio64 threshold users
  if is_baseline then
    (ent_counts.filter (fun p => decide (threshold_ratio ≤ (p.2 : ℚ)))).map Prod.fst
  else
    (ent_counts.filter (fun p => decide ((p.2 : ℚ) ≤ threshold_ratio))).map Prod.fst

/-- Embedding of `baseline_access(df, baseline_threshold, peer_group_type)`:
the insertion-ordered dict from group key to its baseline entitlement set
(the python `set(common)` of an already-duplicate-free index list is carried
as that list). -/
def baseline_access (df : List AccessRecord) (baseline_threshold : ℚ)
    (peer_group_type : String) : List (GKey × List (String × String)) :=
  (get_peer_groups df peer_group_type).map (fun g =>
    (g.1, filter_entitlements (get_entitlement_counts g.2).2
      (get_entitlement_counts g.2).1 baseline_threshold true))

/-- One output row of `anomalies`: a rare grant held by one identity.
`username` is `None` for an empty user sub-frame (the guard in the code), hence an
`Option`. -/
structure AnomalyRecord where
  group : GKey
  userID : String
  username : Option String
  role : String
  ent : String
deriving DecidableEq

/-- Distinct user ids of a group in the ascending order
`group_df.groupby("UserID")` iterates them. -/
def userIds (g : List AccessRecord) : List String :=
  ((g.map (fun r => r.userID)).insertionSort strLeP).dedup

/-- Rows of one identity inside a group, in original order. -/
def userRows (g : List AccessRecord) (u : String) : List AccessRecord :=
  g.filter (fun r => decide (r.userID = u))

/-- Distinct (Role, Entitlement) pairs of one identity:
`set(zip(user_df["Role"], user_df["Entitlement"]))` carried as a
duplicate-free list in first-occurrence order. -/
def user_entitlements (udf : List AccessRecord) : List (String × String) :=
  (udf.map (fun r => (r.role, r.ent))).dedup

/-- Embedding of `anomalies(df, anomaly_threshold, peer_group_type)`: for each
group the rare set, then for each identity of the group one record per held
rare entitlement, with the username of the first row of the identity in the group. -/
def anomalies (df : List AccessRecord) (anomaly_threshold : ℚ)
    (peer_group_type : String) : List AnomalyRecord :=
  (get_peer_groups df peer_group_type).flatMap (fun g =>
    let rare := filter_entitlements (get_entitlement_counts g.2).2
      (get_entitlement_counts g.2).1 anomaly_threshold false
    (userIds g.2).flatMap (fun u =>
      ((user_entitlements (userRows g.2 u)).filter (fun e => decide (e ∈ rare))).map
        (fun e =>
          { group := g.1, userID := u,
            username := (userRows g.2 u).head?.map (fun r => r.username),
            role := e.1, ent := e.2 })))

/-- One output row of `gap_report`. -/
structure GapRecord where
  group : GKey
  role : String
  ent : String
deriving DecidableEq

/-- All (Role, Entitlement) pairs actually held inside a group:
`set(zip(group_df["Role"], group_df["Entitlement"]))` carried as a list whose
membership is the set. -/
def heldSet (g : List AccessRecord) : List (String × String) :=
  g.map (fun r => (r.role, r.ent))

/-- Python dict lookup on the baseline mapping (`group in baseline` /
`baseline[group]`). -/
def dictFind (baseline : List (GKey × List (String × String))) (k : GKey) :
    Option (List (String × String)) :=
  match baseline with
  | [] => none
  | p :: ps => if p.1 = k then some p.2 else dictFind ps k

/-- Embedding of `gap_report(df, baseline, peer_group_type)`: per group of
`df`, if its key is in the baseline dict, one record per baseline entitlement
absent from the held set of the group; groups absent from the dict are skipped. -/
def gap_report (df : List AccessRecord)
    (baseline : List (GKey × List (String × String)))
    (peer_group_type : String) : List GapRecord :=
  (get_peer_groups df peer_group_type).flatMap (fun g =>
    match dictFind baseline g.1 with
    | some base =>
      (base.filter (fun e => decide (¬ e ∈ heldSet g.2))).map
        (fun e => { group := g.1, role := e.1, ent := e.2 })
    | none => [])

/-- Prevalence fraction of an entitlement inside a group, the specified
`count / total` over the two numbers `get_entitlement_counts` produces
(rational division, with the `total = 0` corner giving 0). -/
def prevalence (count total : Nat) : ℚ := (count : ℚ) / total

/-! ### Structural helper lemmas -/

theorem mem_groupKeys {df : List AccessRecord} {mode : String} {k : GKey} :
    k ∈ groupKeys df mode ↔ ∃ r ∈ df, extractKey mode r = some k := by
  unfold groupKeys
  rw [List.mem_dedup, (List.perm_insertionSort GKey.leP _).mem_iff, List.mem_filterMap]

theorem mem_get_peer_groups {df : List AccessRecord} {mode : String}
    {p : GKey × List AccessRecord} :
    p ∈ get_peer_groups df mode ↔
      p.1 ∈ groupKeys df mode ∧ p.2 = groupRows df mode p.1 := by
  unfold get_peer_groups
  rw [List.mem_map]
  constructor
  · rintro ⟨k, hk, rfl⟩
    exact ⟨hk, rfl⟩
  · rintro ⟨hk, hp⟩
    exact ⟨p.1, hk, by rw [← hp]⟩

theorem baseline_access_keys (df : List AccessRecord) (t : ℚ) (mode : String) :
    (baseline_access df t mode).map Prod.fst = groupKeys df mode := by
  simp [baseline_access, get_peer_groups, List.map_map, Function.comp_def]

/-- Structure of one emitted anomaly record: it names a computed group key, a
user of that group, the group-local first-row username of that user, and a
(role, entitlement) pair the user holds that passed the rare filter of that
group at the threshold of the run. -/
theorem anomalies_mem_structure {df : List AccessRecord} {t : ℚ} {mode : String}
    {rec : AnomalyRecord} (h : rec ∈ anomalies df t mode) :
    rec.group ∈ groupKeys df mode ∧
    rec.userID ∈ userIds (groupRows df mode rec.group) ∧
    rec.username =
      (userRows (groupRows df mode rec.group) rec.userID).head?.map (fun r => r.username) ∧
    (rec.role, rec.ent) ∈ user_entitlements (userRows (groupRows df mode rec.group) rec.userID) ∧
    (rec.role, rec.ent) ∈ filter_entitlements
      (get_entitlement_counts (groupRows df mode rec.group)).2
      (get_entitlement_counts (groupRows df mode rec.group)).1 t false := by
  unfold anomalies at h
  rw [List.mem_flatMap] at h
  obtain ⟨g, hg, hrec⟩ := h
  obtain ⟨k, rows⟩ := g
  rw [mem_get_peer_groups] at hg
  simp only at hg
  obtain ⟨hk, hrows⟩ := hg
  subst hrows
  simp only [List.mem_flatMap, List.mem_map, List.mem_filter] at hrec
  obtain ⟨u, hu, e, ⟨he, hrare⟩, hmk⟩ := hrec
  subst hmk
  rw [decide_eq_true_eq] at hrare
  exact ⟨hk, hu, rfl, he, hrare⟩

/-! ### Claims -/

/-- C3 counterexample: a group with zero distinct identities whose prevalence
table holds the key ("R","E") with count 0, classified at the in-range
threshold 50, yields a NON-empty baseline set — the implemented test
`count >= threshold/100*users = 0` admits every key, where the claim demands
the empty set. -/
theorem C3_counterexample :
    (0 : ℚ) < 50 ∧ (50 : ℚ) ≤ 100 ∧
    filter_entitlements [(("R", "E"), 0)] 0 50 true = [("R", "E")] := by
  refine ⟨by norm_num, by norm_num, ?_⟩
  simp [filter_entitlements]

/-- C3 (amended): for a group with zero distinct identities the classifier
never fails (the source multiplies — `threshold_ratio = threshold/100*users`
is 0 — and never divides), and every key of the prevalence table passes the
baseline test `count ≥ 0`, so the baseline set equals the FULL key list of
the table, not the empty set. -/
theorem C3_zero_identity_group_full_baseline
    (ec : List ((String × String) × Nat)) (t : ℚ) :
    filter_entitlements ec 0 t true = ec.map Prod.fst := by
  simp only [filter_entitlements, Nat.cast_zero, mul_zero, if_true]
  rw [List.filter_eq_self.mpr]
  intro p _
  simp

theorem rndTE_eq_floor {q : ℚ} {f : ℤ} (hf1 : (f : ℚ) ≤ q) (hf2 : q < f + 1)
    (hr : q - f < 1/2) : rndTE q = f := by
  have hf : ⌊q⌋ = f := Int.floor_eq_iff.mpr ⟨hf1, hf2⟩
  unfold rndTE
  rw [hf, if_pos hr]

theorem rndTE_eq_floor_add_one {q : ℚ} {f : ℤ} (hf1 : (f : ℚ) ≤ q)
    (hf2 : q < f + 1) (hr : 1/2 < q - f) : rndTE q = f + 1 := by
  have hf : ⌊q⌋ = f := Int.floor_eq_iff.mpr ⟨hf1, hf2⟩
  unfold rndTE
  rw [hf, if_neg (by linarith), if_pos hr]

theorem log2_eq {x : ℚ} (e : ℤ) (hx : 0 < x) (h1 : (2:ℚ) ^ e ≤ x)
    (h2 : x < 2 ^ (e + 1)) : Int.log 2 x = e := by
  have ha : e ≤ Int.log 2 x :=
    (Int.zpow_le_iff_le_log one_lt_two hx).mp (by exact_mod_cast h1)
  have hc : Int.log 2 x < e + 1 :=
    (Int.lt_zpow_iff_log_lt one_lt_two hx).mp (by exact_mod_cast h2)
  omega

/-- Evaluation rule for `roundB64`: with the binade of `x` and the rounded
scaled significand exhibited, the rounded value is `m * s`. -/
theorem roundB64_eq {x s : ℚ} (e m : ℤ) (hx : 0 < x) (hs : s = 2 ^ (e - 52))
    (h1 : (2:ℚ) ^ e ≤ x) (h2 : x < 2 ^ (e + 1)) (hm : rndTE (x / s) = m) :
    roundB64 x = m * s := by
  unfold roundB64
  rw [if_neg hx.ne', abs_of_pos hx, log2_eq e hx h1 h2, ← hs, hm]

/-- The double nearest 56/100 lies strictly ABOVE it (0.56 has no finite
binary expansion): fl(0.56) = 5044031582654956 / 2^53. -/
theorem roundB64_56_100 :
    roundB64 (56/100 : ℚ) = 5044031582654956 / 9007199254740992 := by
  have h := roundB64_eq (x := 56/100) (s := 1/9007199254740992)
    (-1) 5044031582654956 (by norm_num) (by norm_num) (by norm_num) (by norm_num)
    (by
      have := rndTE_eq_floor_add_one (q := (56/100 : ℚ) / (1/9007199254740992))
        (f := 5044031582654955) (by norm_num) (by norm_num) (by norm_num)
      rw [this]; norm_num)
  rw [h]
  norm_num

/-- Multiplying fl(0.56) by 25 and rounding again lands strictly above 14:
fl(fl(0.56)·25) = 7881299347898369 / 2^49 > 14. -/
theorem roundB64_fl56_mul_25 :
    roundB64 ((5044031582654956 / 9007199254740992 : ℚ) * 25) =
      7881299347898369 / 562949953421312 := by
  have h := roundB64_eq
    (x := (5044031582654956 / 9007199254740992 : ℚ) * 25)
    (s := 1/562949953421312) 3 7881299347898369
    (by norm_num) (by norm_num) (by norm_num) (by norm_num)
    (by
      have := rndTE_eq_floor_add_one
        (q := ((5044031582654956 / 9007199254740992 : ℚ) * 25) / (1/562949953421312))
        (f := 7881299347898368) (by norm_num) (by norm_num) (by norm_num)
      rw [this]; norm_num)
  rw [h]
  norm_num

/-- The IEEE-double value of `56.0 / 100.0 * 25` strictly exceeds 14. -/
theorem ratio64_56_25 :
    threshold_ratio64 56 25 = 7881299347898369 / 562949953421312 := by
  unfold threshold_ratio64
  rw [roundB64_56_100, show ((25 : Nat) : ℚ) = 25 by norm_num]
  exact roundB64_fl56_mul_25

theorem roundB64_50_100 : roundB64 (50/100 : ℚ) = 1/2 := by
  have h := roundB64_eq (x := 50/100) (s := 1/9007199254740992)
    (-1) 4503599627370496 (by norm_num) (by norm_num) (by norm_num) (by norm_num)
    (rndTE_eq_floor (q := (50/100 : ℚ) / (1/9007199254740992))
      (f := 4503599627370496) (by norm_num) (by norm_num) (by norm_num))
  rw [h]
  norm_num

theorem roundB64_one : roundB64 (1 : ℚ) = 1 := by
  have h := roundB64_eq (x := (1:ℚ)) (s := 1/4503599627370496)
    0 4503599627370496 (by norm_num) (by norm_num) (by norm_num) (by norm_num)
    (rndTE_eq_floor (q := (1 : ℚ) / (1/4503599627370496))
      (f := 4503599627370496) (by norm_num) (by norm_num) (by norm_num))
  rw [h]
  norm_num

/-- The IEEE-double value of `50.0 / 100.0 * 2` is exactly 1 (both roundings
are exact). -/
theorem ratio64_50_2 : threshold_ratio64 50 2 = 1 := by
  unfold threshold_ratio64
  rw [roundB64_50_100, show (1/2 : ℚ) * ((2 : Nat) : ℚ) = 1 by norm_num]
  exact roundB64_one

/-- C4 counterexample: at threshold 56 — inside (0, 100] — with 25 distinct
identities, a key held by exactly 14 of them, which is exactly 56 percent of
the group, is NOT a member of the baseline set the source computes: in IEEE
doubles `56.0 / 100.0 * 25` strictly exceeds 14, so the `>=` test fails,
where the claim demands membership on both sides of the boundary. -/
theorem C4_counterexample :
    (0 : ℚ) < 56 ∧ (56 : ℚ) ≤ 100 ∧ (14 : ℚ) = 56 / 100 * 25 ∧
    ¬ ("R", "E") ∈ filter_entitlements64 [(("R", "E"), 14)] 25 56 true := by
  refine ⟨by norm_num, by norm_num, by norm_num, ?_⟩
  intro hmem
  simp only [filter_entitlements64, if_true, List.mem_map, List.mem_filter,
    decide_eq_true_eq] at hmem
  obtain ⟨p, ⟨hp, hle⟩, _⟩ := hmem
  rw [List.mem_singleton] at hp
  subst hp
  rw [ratio64_56_25] at hle
  norm_num at hle

/-- C4 (amended): the classifier comparisons are inclusive on both sides of
the COMPUTED threshold ratio — the IEEE-double value of
`threshold / 100.0 * users`: a key whose distinct-holder count equals that
computed ratio is a member of both the baseline set (test ≥) and the rare set
(test ≤) at the same threshold.  A key held by exactly t percent of the
group, however, can fail one of the tests when rounding moves the computed
ratio off the exact value t/100·users, as at t = 56 with 25 identities. -/
theorem C4_boundary_inclusive_computed (ec : List ((String × String) × Nat))
    (users : Nat) (t : ℚ) (e : String × String) (c : Nat)
    (ht0 : 0 < t) (ht1 : t ≤ 100) (hmem : (e, c) ∈ ec)
    (hexact : (c : ℚ) = threshold_ratio64 t users) :
    e ∈ filter_entitlements64 ec users t true ∧
    e ∈ filter_entitlements64 ec users t false := by
  constructor <;>
  · simp only [filter_entitlements64, if_true, Bool.false_eq_true, if_false]
    refine List.mem_map.mpr ⟨(e, c), List.mem_filter.mpr ⟨hmem, decide_eq_true ?_⟩, rfl⟩
    rw [hexact]

theorem C4_boundary_inclusive_computed_witness :
    (0 : ℚ) < 50 ∧ (50 : ℚ) ≤ 100 ∧ ((1 : Nat) : ℚ) = threshold_ratio64 50 2 ∧
    (("R", "E") ∈ filter_entitlements64 [(("R", "E"), 1)] 2 50 true ∧
     ("R", "E") ∈ filter_entitlements64 [(("R", "E"), 1)] 2 50 false) :=
  ⟨by norm_num, by norm_num, by rw [ratio64_50_2]; norm_num,
    C4_boundary_inclusive_computed [(("R", "E"), 1)] 2 50 ("R", "E") 1
      (by norm_num) (by norm_num) (by simp) (by rw [ratio64_50_2]; norm_num)⟩

/-- C5: with both tests running against `threshold/100*users`, raising the
baseline threshold from a to b (a < b in (0,100]) can only shrink the
baseline set, and raising the anomaly threshold from a to b can only grow the
rare set. -/
theorem C5_threshold_monotonicity (ec : List ((String × String) × Nat))
    (users : Nat) (a b : ℚ) (h0 : 0 < a) (hab : a < b) (h100 : b ≤ 100) :
    (∀ e, e ∈ filter_entitlements ec users b true →
      e ∈ filter_entitlements ec users a true) ∧
    (∀ e, e ∈ filter_entitlements ec users a false →
      e ∈ filter_entitlements ec users b false) := by
  have hmono : a / 100 * users ≤ b / 100 * users :=
    mul_le_mul_of_nonneg_right (by linarith) (Nat.cast_nonneg users)
  constructor <;> intro e he <;>
    simp only [filter_entitlements, if_true, Bool.false_eq_true, if_false,
      List.mem_map, List.mem_filter, decide_eq_true_eq] at he ⊢
  · obtain ⟨p, ⟨hp, hc⟩, rfl⟩ := he
    exact ⟨p, ⟨hp, le_trans hmono hc⟩, rfl⟩
  · obtain ⟨p, ⟨hp, hc⟩, rfl⟩ := he
    exact ⟨p, ⟨hp, le_trans hc hmono⟩, rfl⟩

theorem C5_threshold_monotonicity_witness :
    (0 : ℚ) < 30 ∧ (30 : ℚ) < 60 ∧ (60 : ℚ) ≤ 100 ∧
    ((∀ e, e ∈ filter_entitlements [(("R", "E"), 1)] 2 60 true →
        e ∈ filter_entitlements [(("R", "E"), 1)] 2 30 true) ∧
     (∀ e, e ∈ filter_entitlements [(("R", "E"), 1)] 2 30 false →
        e ∈ filter_entitlements [(("R", "E"), 1)] 2 60 false)) :=
  ⟨by norm_num, by norm_num, by norm_num,
    C5_threshold_monotonicity [(("R", "E"), 1)] 2 30 60 (by norm_num)
      (by norm_num) (by norm_num)⟩

/-- C1 counterexample: at threshold 150, outside (0,100], `baseline_access`
does not reject the run — it performs the full grouping work and returns the
normal per-group mapping (here with its one group key), where the claim
demands an InvalidThreshold rejection before any grouping work. -/
theorem C1_counterexample :
    ¬ ((0 : ℚ) < 150 ∧ (150 : ℚ) ≤ 100) ∧
    (baseline_access [⟨"u1", "A", "R", "E", some "T", "D"⟩] 150
        "Department-wide").map Prod.fst = [GKey.unit "D"] := by
  constructor
  · norm_num
  · rw [baseline_access_keys]
    decide

/-- C1 (amended): the core performs no threshold validation at all — for a
threshold outside (0,100] both `baseline_access` and `anomalies` proceed with
the grouping pipeline and return normally, the threshold used as-is: the
baseline mapping still has exactly the computed group keys, and every emitted
anomaly names a computed group key.  (Out-of-range thresholds are only
prevented upstream, by the 0.1–100 bounds of the UI number-input widget.) -/
theorem C1_no_threshold_validation (df : List AccessRecord) (t : ℚ)
    (mode : String) (h : ¬ (0 < t ∧ t ≤ 100)) :
    (baseline_access df t mode).map Prod.fst = groupKeys df mode ∧
    ∀ rec ∈ anomalies df t mode, rec.group ∈ groupKeys df mode :=
  ⟨baseline_access_keys df t mode,
    fun _ hrec => (anomalies_mem_structure hrec).1⟩

theorem C1_no_threshold_validation_witness :
    ¬ ((0 : ℚ) < 150 ∧ (150 : ℚ) ≤ 100) ∧
    ((baseline_access [⟨"u1", "A", "R", "E", some "T", "D"⟩] 150
        "Department-wide").map Prod.fst =
      groupKeys [⟨"u1", "A", "R", "E", some "T", "D"⟩] "Department-wide" ∧
     ∀ rec ∈ anomalies [⟨"u1", "A", "R", "E", some "T", "D"⟩] 150
        "Department-wide", rec.group ∈
          groupKeys [⟨"u1", "A", "R", "E", some "T", "D"⟩] "Department-wide") :=
  ⟨by norm_num,
    C1_no_threshold_validation [⟨"u1", "A", "R", "E", some "T", "D"⟩] 150
      "Department-wide" (by norm_num)⟩

/-- C6: the mapping returned by `baseline_access` has an entry exactly for
every peer-group key extracted from at least one input record — groups whose
baseline set is empty are included, mapping to the empty set, rather than
omitted (the set of the entry is whatever the filter produced, possibly `[]`). -/
theorem C6_every_group_key_in_baseline (df : List AccessRecord) (t : ℚ)
    (mode : String) (k : GKey) :
    (∃ r ∈ df, extractKey mode r = some k) ↔
    ∃ ents, (k, ents) ∈ baseline_access df t mode := by
  rw [← mem_groupKeys, ← baseline_access_keys df t mode]
  constructor
  · intro h
    obtain ⟨p, hp, he⟩ := List.mem_map.mp h
    exact ⟨p.2, by rwa [show (k, p.2) = p from by rw [← he]]⟩
  · rintro ⟨ents, h⟩
    exact List.mem_map.mpr ⟨(k, ents), h, rfl⟩

/-- C2 counterexample: a one-record dataframe whose record has a missing
(NaN) Title yields NO peer group at all under Department + Title grouping —
pandas `groupby` (default `dropna=True`) drops the row instead of placing it
in its own group, where the claim demands every record appear in exactly one
group and missing titles form a distinct valid group. -/
theorem C2_counterexample :
    (⟨"u1", "A", "R", "E", none, "D"⟩ : AccessRecord) ∈
      ([⟨"u1", "A", "R", "E", none, "D"⟩] : List AccessRecord) ∧
    get_peer_groups [⟨"u1", "A", "R", "E", none, "D"⟩] "Department + Title" = [] := by
  decide

/-- C2 (amended): every record whose grouping key extraction succeeds — i.e.
every record under by-unit grouping, and every record with a PRESENT title
(the empty string included, forming its own distinct group) under
by-unit-and-title grouping — lands in exactly one peer group, with its
dataframe multiplicity preserved; records with a missing (NaN) title are
silently dropped by by-unit-and-title grouping, not kept. -/
theorem C2_partition (df : List AccessRecord) (mode : String)
    (r : AccessRecord) (k : GKey) (hr : r ∈ df)
    (hk : extractKey mode r = some k) :
    k ∈ groupKeys df mode ∧
    r ∈ groupRows df mode k ∧
    (∀ p ∈ get_peer_groups df mode, r ∈ p.2 → p.1 = k) ∧
    (groupRows df mode k).count r = df.count r := by
  refine ⟨mem_groupKeys.mpr ⟨r, hr, hk⟩,
    List.mem_filter.mpr ⟨hr, decide_eq_true hk⟩, ?_, ?_⟩
  · intro p hp hrp
    rw [mem_get_peer_groups] at hp
    rw [hp.2] at hrp
    have := (List.mem_filter.mp hrp).2
    rw [decide_eq_true_eq, hk] at this
    exact (Option.some.injEq .. ▸ this).symm
  · exact List.count_filter (decide_eq_true hk)

theorem C2_partition_witness :
    ((⟨"u1", "A", "R", "E", some "", "D"⟩ : AccessRecord) ∈
      ([⟨"u1", "A", "R", "E", some "", "D"⟩] : List AccessRecord)) ∧
    extractKey "Department + Title" ⟨"u1", "A", "R", "E", some "", "D"⟩ =
      some (GKey.unitTitle "D" "") ∧
    (GKey.unitTitle "D" "" ∈
        groupKeys [⟨"u1", "A", "R", "E", some "", "D"⟩] "Department + Title" ∧
      (⟨"u1", "A", "R", "E", some "", "D"⟩ : AccessRecord) ∈
        groupRows [⟨"u1", "A", "R", "E", some "", "D"⟩] "Department + Title"
          (GKey.unitTitle "D" "") ∧
      (∀ p ∈ get_peer_groups [⟨"u1", "A", "R", "E", some "", "D"⟩]
          "Department + Title",
        (⟨"u1", "A", "R", "E", some "", "D"⟩ : AccessRecord) ∈ p.2 →
          p.1 = GKey.unitTitle "D" "") ∧
      (groupRows [⟨"u1", "A", "R", "E", some "", "D"⟩] "Department + Title"
          (GKey.unitTitle "D" "")).count ⟨"u1", "A", "R", "E", some "", "D"⟩ =
        ([⟨"u1", "A", "R", "E", some "", "D"⟩] :
          List AccessRecord).count ⟨"u1", "A", "R", "E", some "", "D"⟩) :=
  ⟨by decide, by decide,
    C2_partition [⟨"u1", "A", "R", "E", some "", "D"⟩] "Department + Title"
      ⟨"u1", "A", "R", "E", some "", "D"⟩ (GKey.unitTitle "D" "")
      (by decide) (by decide)⟩

/-- C8: every emitted gap record names a group key present in the baseline
dict together with a (role, entitlement) pair that is in the baseline set of that
baseline set and absent from the pairs actually held inside the group; by the
same token a group whose key is missing from the dict contributes no gap
record at all — a silent skip, never an error. -/
theorem C8_gap_records_sound (df : List AccessRecord)
    (baseline : List (GKey × List (String × String))) (mode : String)
    (rec : GapRecord) (h : rec ∈ gap_report df baseline mode) :
    ∃ base, dictFind baseline rec.group = some base ∧
      (rec.role, rec.ent) ∈ base ∧
      ¬ (rec.role, rec.ent) ∈ heldSet (groupRows df mode rec.group) := by
  unfold gap_report at h
  rw [List.mem_flatMap] at h
  obtain ⟨g, hg, hrec⟩ := h
  obtain ⟨k, rows⟩ := g
  rw [mem_get_peer_groups] at hg
  simp only at hg
  obtain ⟨hk, hrows⟩ := hg
  subst hrows
  simp only at hrec
  cases hd : dictFind baseline k with
  | none => rw [hd] at hrec; simp at hrec
  | some base =>
    rw [hd] at hrec
    simp only [List.mem_map, List.mem_filter, decide_eq_true_eq] at hrec
    obtain ⟨e, ⟨hbase, hnotheld⟩, hmk⟩ := hrec
    subst hmk
    exact ⟨base, hd, hbase, hnotheld⟩

theorem C8_gap_records_sound_witness :
    ((⟨GKey.unit "D", "R", "F"⟩ : GapRecord) ∈
      gap_report [⟨"u1", "A", "R", "E", some "T", "D"⟩]
        [(GKey.unit "D", [("R", "E"), ("R", "F")])] "Department-wide") ∧
    ∃ base, dictFind [(GKey.unit "D", [("R", "E"), ("R", "F")])]
        (GapRecord.group ⟨GKey.unit "D", "R", "F"⟩) = some base ∧
      ("R", "F") ∈ base ∧
      ¬ ("R", "F") ∈ heldSet (groupRows [⟨"u1", "A", "R", "E", some "T", "D"⟩]
        "Department-wide" (GKey.unit "D")) :=
  ⟨by decide,
    C8_gap_records_sound [⟨"u1", "A", "R", "E", some "T", "D"⟩]
      [(GKey.unit "D", [("R", "E"), ("R", "F")])] "Department-wide"
      ⟨GKey.unit "D", "R", "F"⟩ (by decide)⟩

/-- Deduplicated length is monotone under list inclusion (distinct-count of a
sub-collection is at most that of the collection). -/
theorem dedup_length_le_of_subset {α : Type} [DecidableEq α]
    {l1 l2 : List α} (h : l1 ⊆ l2) : l1.dedup.length ≤ l2.dedup.length := by
  rw [← List.card_toFinset, ← List.card_toFinset]
  exact Finset.card_le_card fun a ha =>
    List.mem_toFinset.mpr (h (List.mem_toFinset.mp ha))

/-- C9: in the prevalence table of every group, each key has a distinct-identity
holder count at most the distinct-identity total of the group, and the prevalence
fraction count/total lies in [0, 1]. -/
theorem C9_prevalence_bounds (g : List AccessRecord) (e : String × String)
    (c : Nat) (h : (e, c) ∈ (get_entitlement_counts g).2) :
    c ≤ (get_entitlement_counts g).1 ∧
    0 ≤ prevalence c (get_entitlement_counts g).1 ∧
    prevalence c (get_entitlement_counts g).1 ≤ 1 := by
  have hc : c ≤ (get_entitlement_counts g).1 := by
    simp only [get_entitlement_counts, List.mem_map] at h
    obtain ⟨e2, _, hpair⟩ := h
    simp only [Prod.mk.injEq] at hpair
    obtain ⟨rfl, rfl⟩ := hpair
    exact dedup_length_le_of_subset
      (List.map_subset _ (List.filter_sublist g).subset)
  refine ⟨hc, div_nonneg (Nat.cast_nonneg c) (Nat.cast_nonneg _), ?_⟩
  rcases Nat.eq_zero_or_pos (get_entitlement_counts g).1 with h0 | h0
  · rw [h0] at hc ⊢
    interval_cases c
    simp [prevalence]
  · rw [prevalence, div_le_one (by exact_mod_cast h0)]
    exact_mod_cast hc

/-- C7: the (role, entitlement) pair of every anomaly record is a member of the
rare set of its stated group computed at the same threshold, is actually held
by the stated identity (appears on at least one row of that identity in
that group), and its display name is the username of the first record
encountered for that identity within the group (first-seen wins). -/
theorem C7_anomaly_records_sound (df : List AccessRecord) (t : ℚ)
    (mode : String) (rec : AnomalyRecord) (h : rec ∈ anomalies df t mode) :
    (rec.role, rec.ent) ∈ filter_entitlements
        (get_entitlement_counts (groupRows df mode rec.group)).2
        (get_entitlement_counts (groupRows df mode rec.group)).1 t false ∧
    (∃ row ∈ groupRows df mode rec.group,
        row.userID = rec.userID ∧ row.role = rec.role ∧ row.ent = rec.ent) ∧
    rec.username =
      (userRows (groupRows df mode rec.group) rec.userID).head?.map
        (fun r => r.username) := by
  obtain ⟨_, _, hname, hheld, hrare⟩ := anomalies_mem_structure h
  refine ⟨hrare, ?_, hname⟩
  unfold user_entitlements at hheld
  rw [List.mem_dedup, List.mem_map] at hheld
  obtain ⟨row, hrow, hpair⟩ := hheld
  unfold userRows at hrow
  rw [List.mem_filter, decide_eq_true_eq] at hrow
  exact ⟨row, hrow.1, hrow.2, congrArg Prod.fst hpair, congrArg Prod.snd hpair⟩

theorem C7_anomaly_records_sound_witness :
    ((⟨GKey.unit "D", "u1", some "A", "R", "E"⟩ : AnomalyRecord) ∈
      anomalies [⟨"u1", "A", "R", "E", some "T", "D"⟩] 100 "Department-wide") ∧
    (("R", "E") ∈ filter_entitlements
        (get_entitlement_counts (groupRows [⟨"u1", "A", "R", "E", some "T", "D"⟩]
          "Department-wide" (GKey.unit "D"))).2
        (get_entitlement_counts (groupRows [⟨"u1", "A", "R", "E", some "T", "D"⟩]
          "Department-wide" (GKey.unit "D"))).1 100 false ∧
      (∃ row ∈ groupRows [⟨"u1", "A", "R", "E", some "T", "D"⟩]
          "Department-wide" (GKey.unit "D"),
        row.userID = "u1" ∧ row.role = "R" ∧ row.ent = "E") ∧
      (some "A" : Option String) =
        (userRows (groupRows [⟨"u1", "A", "R", "E", some "T", "D"⟩]
          "Department-wide" (GKey.unit "D")) "u1").head?.map
            (fun r => r.username)) := by
  have hmem : (⟨GKey.unit "D", "u1", some "A", "R", "E"⟩ : AnomalyRecord) ∈
      anomalies [⟨"u1", "A", "R", "E", some "T", "D"⟩] 100 "Department-wide" := by
    have h1 : get_peer_groups [⟨"u1", "A", "R", "E", some "T", "D"⟩]
        "Department-wide" =
        [(GKey.unit "D", [⟨"u1", "A", "R", "E", some "T", "D"⟩])] := by decide
    simp [anomalies, h1, filter_entitlements, userIds, userRows,
      user_entitlements, get_entitlement_counts, entKeys, holderCount,
      List.insertionSort, List.orderedInsert]
  exact ⟨hmem, C7_anomaly_records_sound [⟨"u1", "A", "R", "E", some "T", "D"⟩]
    100 "Department-wide" ⟨GKey.unit "D", "u1", some "A", "R", "E"⟩ hmem⟩

theorem C9_prevalence_bounds_witness :
    ((("R", "E"), 1) ∈
      (get_entitlement_counts [⟨"u1", "A", "R", "E", some "T", "D"⟩]).2) ∧
    (1 ≤ (get_entitlement_counts [⟨"u1", "A", "R", "E", some "T", "D"⟩]).1 ∧
      0 ≤ prevalence 1
        (get_entitlement_counts [⟨"u1", "A", "R", "E", some "T", "D"⟩]).1 ∧
      prevalence 1
        (get_entitlement_counts [⟨"u1", "A", "R", "E", some "T", "D"⟩]).1 ≤ 1) :=
  ⟨by decide,
    C9_prevalence_bounds [⟨"u1", "A", "R", "E", some "T", "D"⟩] ("R", "E") 1
      (by decide)⟩

theorem pairwise_of_const {α : Type} {P : Prop} (h : P) :
    ∀ l : List α, List.Pairwise (fun _ _ => P) l
  | [] => List.Pairwise.nil
  | _ :: as => List.Pairwise.cons (fun _ _ => h) (pairwise_of_const h as)

/-- Group keys are iterated in strictly ascending order (pandas `groupby`
sorts keys and each key appears once). -/
theorem groupKeys_pairwise (df : List AccessRecord) (mode : String) :
    List.Pairwise (fun a b => GKey.le a b = true ∧ a ≠ b)
      (groupKeys df mode) := by
  have hs : List.Pairwise GKey.leP (groupKeys df mode) :=
    List.Pairwise.sublist (List.dedup_sublist _)
      (List.sorted_insertionSort GKey.leP _)
  have hn : List.Pairwise (fun a b : GKey => a ≠ b) (groupKeys df mode) :=
    List.nodup_dedup _
  exact hs.and hn

/-- User ids inside a group are iterated in ascending order. -/
theorem userIds_sorted (g : List AccessRecord) :
    List.Pairwise strLeP (userIds g) :=
  List.Pairwise.sublist (List.dedup_sublist _)
    (List.sorted_insertionSort strLeP _)

/-- C10: the insertion order of the baseline dict is the strictly ascending order
of the group keys, and the (group, identity) projection of the anomaly sequence is
lexicographically sorted — groups ascend, and identities ascend within a
group.  Both functions are pure, so these orders are identical across runs on
the same input. -/
theorem C10_sorted_iteration (df : List AccessRecord) (t : ℚ) (mode : String) :
    List.Pairwise (fun a b => GKey.le a b = true ∧ a ≠ b)
      ((baseline_access df t mode).map Prod.fst) ∧
    List.Pairwise (fun p q : GKey × String =>
        (GKey.le p.1 q.1 = true ∧ p.1 ≠ q.1) ∨
        (p.1 = q.1 ∧ strLe p.2 q.2 = true))
      ((anomalies df t mode).map (fun rec => (rec.group, rec.userID))) := by
  constructor
  · rw [baseline_access_keys]
    exact groupKeys_pairwise df mode
  · unfold anomalies
    rw [List.map_flatMap, List.pairwise_flatMap]
    constructor
    · intro g _
      simp only [List.map_flatMap, List.map_map, Function.comp_def]
      rw [List.pairwise_flatMap]
      constructor
      · intro u _
        rw [List.pairwise_map]
        exact pairwise_of_const (Or.inr ⟨rfl, strLe_refl u⟩) _
      · refine (userIds_sorted g.2).imp ?_
        intro u1 u2 hle x hx y hy
        rw [List.mem_map] at hx hy
        obtain ⟨e1, _, rfl⟩ := hx
        obtain ⟨e2, _, rfl⟩ := hy
        exact Or.inr ⟨rfl, hle⟩
    · unfold get_peer_groups
      rw [List.pairwise_map]
      refine (groupKeys_pairwise df mode).imp ?_
      intro k1 k2 hk x hx y hy
      simp only [List.map_flatMap, List.map_map, Function.comp_def,
        List.mem_flatMap, List.mem_map] at hx hy
      obtain ⟨u1, _, e1, _, rfl⟩ := hx
      obtain ⟨u2, _, e2, _, rfl⟩ := hy
      exact Or.inl hk

end FISER
